import Mathlib

/-!
# Shallow embedding of the micro entity-component-system (`src/ecs.hpp`)

The source is a single C++ header. Its data model:

* `Entity` holds `componentMap : std::unordered_map<const std::type_info*,
  ComponentPtr, HashTypeInfoReferents, EqualReferents<std::type_info>>`, a
  per-entity map from a component-type identity to an owned, type-erased
  component pointer.
* A map key is a (possibly null) pointer to a `std::type_info`.  The map's
  equality `EqualReferents` compares two keys by pointer equality or, when both
  are non-null, by equality of the referents (for `std::type_info`, equality of
  the denoted type); the hash `HashTypeInfoReferents` hashes the referent's
  `hash_code()`, mapping a null pointer to `0`.  Both the hash and the induced
  key equality therefore depend only on the referent's type (pointer equality
  of `type_info` pointers implies referent equality), so a key is modelled as
  `Option Nat`: `none` for a null pointer, `some t` for any pointer to the
  `type_info` of the concrete type with identity `t`.
* A stored value (`ComponentPtr`) is a `unique_ptr<Component, void(*)(Component*)>`
  built by `MakeComponentPtr<T>`, which pairs the raw pointer with a deleter
  bound to the concrete type `T`.  It is modelled as `Stored`, recording the
  concrete type the object was stored as (`tag`, the type bound at
  `MakeComponentPtr`) and the payload (`val`).
* The map itself is modelled as an association list; `unordered_map` operations
  are translated against the list with the map's `EqualReferents` key equality
  (`emplace` inserts only when no equivalent key is present, `erase` removes
  every element with an equivalent key, `find` scans for an equivalent key).
* `System<Components...>` holds `componentTypes`, the vector
  `{&typeid(Components)...}`, and `process` runs the user-supplied virtual
  `logic` on an entity exactly when `std::all_of` the required identities are
  contained.  The virtual call is modelled by a function parameter
  `logic : Entity → W → Entity × W` over an arbitrary external world `W`, so
  that invocation of `logic` is observable (e.g. by counting in `W`); `process`
  threads the receiver `System` explicitly, mirroring that the C++ member
  function body never assigns to `componentTypes`.
-/

namespace MicroECS

/-- Model of a `const std::type_info*` map key: `none` is a null pointer,
`some t` is a pointer to the `type_info` denoting the concrete type `t`. -/
abbrev TIKey := Option Nat

/-- `Entity::HashTypeInfoReferents::operator()`: a null pointer hashes to `0`,
otherwise the referent's `hash_code()` (modelled as the type identity itself,
a valid model of `hash_code` since equal types have equal hash codes). -/
def HashTypeInfoReferents : TIKey → Nat
  | none => 0
  | some ti => ti

/-- `Entity::EqualReferents<std::type_info>::operator()`:
`lhs == rhs || (lhs && rhs && *lhs == *rhs)`.  Two null pointers are equal
(pointer equality); a null and a non-null pointer are unequal; two non-null
pointers are equal iff the referent `type_info`s denote the same type (pointer
equality implies referent equality, so only the referent comparison remains in
the model). -/
def EqualReferents : TIKey → TIKey → Bool
  | none, none => true
  | some l, some r => l == r
  | _, _ => false

/-- A `ComponentPtr` (`std::unique_ptr<Component, void(*)(Component*)>`):
`tag` is the concrete component type the deleter was bound to when the pointer
was made (`MakeComponentPtr<T>`), `val` the component object's payload. -/
structure Stored where
  tag : Nat
  val : Nat
deriving DecidableEq, Repr

/-- `Entity::MakeComponentPtr<T>(T* ptr)`: wraps the pointer with a deleter
that deletes it as a `T`, binding the concrete type to the erased pointer. -/
def MakeComponentPtr (T : Nat) (v : Nat) : Stored := ⟨T, v⟩

/-- `UnderlyingMap::emplace(key, value)` on the association-list model of
`std::unordered_map`: inserts the pair only if no element with an equivalent
key (per `EqualReferents`) is present; otherwise the map is unchanged. -/
def mapEmplace (m : List (TIKey × Stored)) (k : TIKey) (v : Stored) :
    List (TIKey × Stored) :=
  if (m.find? (fun p => EqualReferents p.1 k)).isSome then m else (k, v) :: m

/-- `class Entity`: a bag of components, i.e. the component map. -/
structure Entity where
  componentMap : List (TIKey × Stored)
deriving DecidableEq

/-- A default-constructed `Entity`: empty component map. -/
def Entity.empty : Entity := ⟨[]⟩

/-- `Component* Entity::get(const std::type_info* ti) const`: looks `ti` up in
the map; returns the stored erased pointer, or null (`none`) if absent. -/
def Entity.getTi (e : Entity) (ti : TIKey) : Option Stored :=
  match e.componentMap.find? (fun p => EqualReferents p.1 ti) with
  | some p => some p.2
  | none => none

/-- `T* Entity::get<T>() const`: `static_cast<T*>(get(&typeid(T)))` — fetches
the erased pointer stored under `T`'s type identity.  (The validity of the
narrowing cast is a separate property, proved below: every pointer stored
under `some T` has `tag = T`.) -/
def Entity.get (e : Entity) (T : Nat) : Option Stored := e.getTi (some T)

/-- `void Entity::emplace<T>(Args&&... args)`: constructs a `T` from the
arguments (the constructed payload is `v`), wraps it via `MakeComponentPtr`,
and `componentMap.emplace`s it under `&typeid(T)`. -/
def Entity.emplace (e : Entity) (T v : Nat) : Entity :=
  ⟨mapEmplace e.componentMap (some T) (MakeComponentPtr T v)⟩

/-- `void Entity::insert<T>(T* c)`: takes ownership of the pre-constructed
component `c` (payload `v`) and `componentMap.emplace`s
`MakeComponentPtr<T>(c)` under `&typeid(T)`. -/
def Entity.insert (e : Entity) (T v : Nat) : Entity :=
  ⟨mapEmplace e.componentMap (some T) (MakeComponentPtr T v)⟩

/-- `void Entity::erase(const std::type_info* ti)`: `componentMap.erase(ti)` —
removes (and destroys) every element whose key is equivalent to `ti`. -/
def Entity.eraseTi (e : Entity) (ti : TIKey) : Entity :=
  ⟨e.componentMap.filter (fun p => !(EqualReferents p.1 ti))⟩

/-- `void Entity::erase<T>()`: `erase(&typeid(T))`. -/
def Entity.erase (e : Entity) (T : Nat) : Entity := e.eraseTi (some T)

/-- `bool Entity::contains(const std::type_info* ti) const`:
`componentMap.find(ti) != componentMap.end()`. -/
def Entity.containsTi (e : Entity) (ti : TIKey) : Bool :=
  (e.componentMap.find? (fun p => EqualReferents p.1 ti)).isSome

/-- `bool Entity::contains<T>() const`: `contains(&typeid(T))`. -/
def Entity.contains (e : Entity) (T : Nat) : Bool := e.containsTi (some T)

/-- `class System<Components...>`: holds the vector
`componentTypes{&typeid(Components)...}`. -/
structure System where
  componentTypes : List TIKey
deriving DecidableEq

/-- `System<Components...>::System()`: `componentTypes` is initialised with
the type identities of the declared component types, in declaration order. -/
def System.ofComponents (Ts : List Nat) : System := ⟨Ts.map some⟩

/-- `void System::process(Entity& e)`: if `std::all_of` the required type
identities are `e.contains`-ed, invokes the virtual `logic(e)`; otherwise does
nothing.  The user-supplied virtual `logic` is a parameter acting on the
entity and an arbitrary external world `W`; the receiver system is threaded
through explicitly (the member function body never assigns to
`componentTypes`, so it returns the receiver unchanged). -/
def System.process {W : Type} (s : System) (logic : Entity → W → Entity × W)
    (e : Entity) (w : W) : System × Entity × W :=
  if s.componentTypes.all (fun ti => Entity.containsTi e ti) then
    (s, logic e w)
  else
    (s, e, w)

/-- `void System::process(std::vector<Entity>& entities)`:
`for (Entity& e : entities) process(e);` — processes each entity of the
sequence in order, threading the receiver system and the external world. -/
def System.processSeq {W : Type} (logic : Entity → W → Entity × W) :
    System → List Entity → W → System × List Entity × W
  | s, [], w => (s, [], w)
  | s, e :: rest, w =>
    let r := s.process logic e w
    let rr := System.processSeq logic r.1 rest r.2.2
    (rr.1, r.2.1 :: rr.2.1, rr.2.2)

/-- Instrumentation of a concrete system's `logic`: the same entity
transformation, with the external world counting how many times `logic` was
invoked. -/
def countingLogic (logic : Entity → Entity) : Entity → Nat → Entity × Nat :=
  fun e n => (logic e, n + 1)

/-! ## Reachable entity states

The public typed operations of `Entity` are `emplace<T>`, `insert<T>`,
`erase<T>` (together with the read-only `get`/`contains`); an entity state is
reachable when it arises from a default-constructed entity by these. -/

/-- Entity states reachable from a default-constructed `Entity` through the
public typed mutating operations. -/
inductive Reachable : Entity → Prop where
  | empty : Reachable Entity.empty
  | emplace (e : Entity) (T v : Nat) : Reachable e → Reachable (e.emplace T v)
  | insert (e : Entity) (T v : Nat) : Reachable e → Reachable (e.insert T v)
  | erase (e : Entity) (T : Nat) : Reachable e → Reachable (e.erase T)

/-- Store invariant: every map entry is keyed by a non-null type identity and
its stored pointer carries exactly that type's deleter binding (`tag`). -/
def WellTagged (e : Entity) : Prop :=
  ∀ p ∈ e.componentMap, p.1 = some p.2.tag

/-- Number of map entries whose key is equivalent (per `EqualReferents`) to
`ti`: the number of component instances stored for that type identity. -/
def Entity.countFor (e : Entity) (ti : TIKey) : Nat :=
  (e.componentMap.filter (fun p => EqualReferents p.1 ti)).length

/-! ## Sequences of typed operations on a single component type

For the uniqueness/presence property the spec quantifies over arbitrary finite
sequences of `emplace<T>` / `insert<T>` / `erase<T>` calls. -/

/-- One typed operation on the fixed component type `T`. -/
inductive TOp where
  | emplaceOp (v : Nat)
  | insertOp (v : Nat)
  | eraseOp
deriving DecidableEq, Repr

/-- Is the operation an insertion (`emplace<T>` or `insert<T>`)? -/
def isIns : TOp → Bool
  | .emplaceOp _ => true
  | .insertOp _ => true
  | .eraseOp => false

/-- Apply one typed operation on component type `T` to an entity. -/
def applyTOp (T : Nat) (e : Entity) : TOp → Entity
  | .emplaceOp v => e.emplace T v
  | .insertOp v => e.insert T v
  | .eraseOp => e.erase T

/-- Run a finite sequence of typed operations on component type `T`. -/
def runTOps (T : Nat) (e : Entity) (ops : List TOp) : Entity :=
  ops.foldl (applyTOp T) e

/-- Formalisation of "at least one successful insertion of `T` has occurred
with no subsequent `erase<T>`": the sequence splits as `pre ++ op :: post`
where `op` is an insertion, the entity built from `pre` does not yet contain
`T` (so `op` succeeds), and no erase follows. -/
def InsertedNotErased (T : Nat) (ops : List TOp) : Prop :=
  ∃ pre op post, ops = pre ++ op :: post ∧ isIns op = true ∧
    (runTOps T Entity.empty pre).contains T = false ∧
    ∀ o ∈ post, o ≠ TOp.eraseOp

/-! ## Basic lemmas about the key equality and the map operations -/

theorem equalReferents_iff (a b : TIKey) : EqualReferents a b = true ↔ a = b := by
  cases a <;> cases b <;> simp [EqualReferents]

theorem equalReferents_refl (a : TIKey) : EqualReferents a a = true := by
  rw [equalReferents_iff]

/-- `contains` is exactly "the lookup succeeds". -/
theorem containsTi_eq_isSome (e : Entity) (ti : TIKey) :
    e.containsTi ti = (e.getTi ti).isSome := by
  unfold Entity.containsTi Entity.getTi
  cases e.componentMap.find? (fun p => EqualReferents p.1 ti) <;> simp

theorem contains_false_iff (e : Entity) (ti : TIKey) :
    e.containsTi ti = false ↔ ∀ p ∈ e.componentMap, EqualReferents p.1 ti = false := by
  constructor
  · intro h p hp
    cases hfind : List.find? (fun p => EqualReferents p.1 ti) e.componentMap with
    | none =>
      have := List.find?_eq_none.mp hfind p hp
      simpa using this
    | some q =>
      rw [Entity.containsTi, hfind] at h
      simp at h
  · intro h
    have hn : List.find? (fun p => EqualReferents p.1 ti) e.componentMap = none :=
      List.find?_eq_none.mpr (fun p hp => by simp [h p hp])
    rw [Entity.containsTi, hn]
    rfl

theorem equalReferents_eq_false_of_ne {a b : TIKey} (h : a ≠ b) :
    EqualReferents a b = false := by
  cases hab : EqualReferents a b
  · rfl
  · exact absurd ((equalReferents_iff a b).mp hab) h

theorem insert_eq_emplace : @Entity.insert = @Entity.emplace := rfl

theorem emplace_of_contains (e : Entity) (T v : Nat) (h : e.contains T = true) :
    e.emplace T v = e := by
  have h' : (e.componentMap.find? fun p => EqualReferents p.1 (some T)).isSome = true := h
  simp [Entity.emplace, mapEmplace, h']

theorem emplace_of_not_contains (e : Entity) (T v : Nat) (h : e.contains T = false) :
    (e.emplace T v).componentMap = (some T, MakeComponentPtr T v) :: e.componentMap := by
  have h' : (e.componentMap.find? fun p => EqualReferents p.1 (some T)).isSome = false := h
  simp [Entity.emplace, mapEmplace, h']

theorem contains_emplace_self (e : Entity) (T v : Nat) :
    (e.emplace T v).contains T = true := by
  cases h : e.contains T with
  | true => rw [emplace_of_contains e T v h]; exact h
  | false =>
    have hhead : List.find? (fun p => EqualReferents p.1 (some T))
        ((some T, MakeComponentPtr T v) :: e.componentMap) =
        some (some T, MakeComponentPtr T v) :=
      List.find?_cons_of_pos _ (equalReferents_refl (some T))
    rw [Entity.contains, Entity.containsTi, emplace_of_not_contains e T v h, hhead]
    rfl

theorem get_emplace_self (e : Entity) (T v : Nat) (h : e.contains T = false) :
    (e.emplace T v).get T = some (MakeComponentPtr T v) := by
  have hhead : List.find? (fun p => EqualReferents p.1 (some T))
      ((some T, MakeComponentPtr T v) :: e.componentMap) =
      some (some T, MakeComponentPtr T v) :=
    List.find?_cons_of_pos _ (equalReferents_refl (some T))
  rw [Entity.get, Entity.getTi, emplace_of_not_contains e T v h, hhead]

theorem containsTi_eraseTi_self (e : Entity) (ti : TIKey) :
    (e.eraseTi ti).containsTi ti = false := by
  rw [contains_false_iff]
  intro p hp
  simp only [Entity.eraseTi] at hp
  have := List.of_mem_filter hp
  simpa using this

theorem eraseTi_of_not_contains (e : Entity) (ti : TIKey) (h : e.containsTi ti = false) :
    e.eraseTi ti = e := by
  have h' := (contains_false_iff e ti).mp h
  have hfe : e.componentMap.filter (fun p => !(EqualReferents p.1 ti)) = e.componentMap :=
    List.filter_eq_self.mpr (fun p hp => by simp [h' p hp])
  rw [Entity.eraseTi, hfe]

theorem eraseTi_idem (e : Entity) (ti : TIKey) :
    (e.eraseTi ti).eraseTi ti = e.eraseTi ti :=
  eraseTi_of_not_contains _ _ (containsTi_eraseTi_self e ti)

theorem find?_filter_of_imp {α : Type} (l : List α) (p q : α → Bool)
    (h : ∀ x, p x = true → q x = true) :
    (l.filter q).find? p = l.find? p := by
  induction l with
  | nil => rfl
  | cons a t ih =>
    cases hq : q a with
    | true =>
      rw [List.filter_cons_of_pos hq]
      cases hp : p a with
      | true => rw [List.find?_cons_of_pos _ hp, List.find?_cons_of_pos _ hp]
      | false =>
        rw [List.find?_cons_of_neg _ (by simp [hp]),
          List.find?_cons_of_neg _ (by simp [hp]), ih]
    | false =>
      have hp : p a = false := by
        cases hpa : p a with
        | false => rfl
        | true => rw [h a hpa] at hq; cases hq
      rw [List.filter_cons_of_neg (by simp [hq]),
        List.find?_cons_of_neg _ (by simp [hp]), ih]

theorem getTi_eraseTi_ne (e : Entity) (ti tj : TIKey) (h : ti ≠ tj) :
    (e.eraseTi tj).getTi ti = e.getTi ti := by
  have hfind : ((e.componentMap.filter fun p => !(EqualReferents p.1 tj)).find?
      fun p => EqualReferents p.1 ti) =
      (e.componentMap.find? fun p => EqualReferents p.1 ti) := by
    refine find?_filter_of_imp _ _ _ (fun x hx => ?_)
    have hxeq : x.1 = ti := (equalReferents_iff _ _).mp hx
    rw [hxeq, equalReferents_eq_false_of_ne h]
    rfl
  rw [Entity.getTi, Entity.getTi]
  simp only [Entity.eraseTi]
  rw [hfind]

theorem containsTi_eraseTi_ne (e : Entity) (ti tj : TIKey) (h : ti ≠ tj) :
    (e.eraseTi tj).containsTi ti = e.containsTi ti := by
  rw [containsTi_eq_isSome, containsTi_eq_isSome, getTi_eraseTi_ne e ti tj h]

theorem getTi_emplace_ne (e : Entity) (T v : Nat) (ti : TIKey) (h : ti ≠ some T) :
    (e.emplace T v).getTi ti = e.getTi ti := by
  cases hc : e.contains T with
  | true => rw [emplace_of_contains e T v hc]
  | false =>
    rw [Entity.getTi, Entity.getTi, emplace_of_not_contains e T v hc,
      List.find?_cons_of_neg]
    simp [equalReferents_eq_false_of_ne (Ne.symm h)]

theorem containsTi_emplace_ne (e : Entity) (T v : Nat) (ti : TIKey) (h : ti ≠ some T) :
    (e.emplace T v).containsTi ti = e.containsTi ti := by
  rw [containsTi_eq_isSome, containsTi_eq_isSome, getTi_emplace_ne e T v ti h]

theorem wellTagged_empty : WellTagged Entity.empty := by
  intro p hp
  cases hp

theorem wellTagged_emplace (e : Entity) (T v : Nat) (h : WellTagged e) :
    WellTagged (e.emplace T v) := by
  cases hc : e.contains T with
  | true => rw [emplace_of_contains e T v hc]; exact h
  | false =>
    intro p hp
    rw [emplace_of_not_contains e T v hc] at hp
    rcases List.mem_cons.mp hp with h1 | h2
    · subst h1; rfl
    · exact h p h2

theorem wellTagged_eraseTi (e : Entity) (ti : TIKey) (h : WellTagged e) :
    WellTagged (e.eraseTi ti) := by
  intro p hp
  simp only [Entity.eraseTi] at hp
  exact h p (List.mem_of_mem_filter hp)

theorem reachable_wellTagged {e : Entity} (h : Reachable e) : WellTagged e := by
  induction h with
  | empty => exact wellTagged_empty
  | emplace e T v _ ih => exact wellTagged_emplace e T v ih
  | insert e T v _ ih => exact wellTagged_emplace e T v ih
  | erase e T _ ih => exact wellTagged_eraseTi e (some T) ih

theorem countFor_empty (ti : TIKey) : Entity.empty.countFor ti = 0 := rfl

theorem countFor_le_one_emplace (e : Entity) (T v : Nat)
    (h : ∀ ti, e.countFor ti ≤ 1) : ∀ ti, (e.emplace T v).countFor ti ≤ 1 := by
  intro ti
  cases hc : e.contains T with
  | true => rw [emplace_of_contains e T v hc]; exact h ti
  | false =>
    rw [Entity.countFor, emplace_of_not_contains e T v hc]
    cases hhead : EqualReferents (some T) ti with
    | false =>
      rw [List.filter_cons_of_neg (by simp [hhead])]
      exact h ti
    | true =>
      rw [List.filter_cons_of_pos (by simp [hhead])]
      have hti : (some T : TIKey) = ti := (equalReferents_iff _ _).mp hhead
      have hnone := (contains_false_iff e (some T)).mp hc
      have hnil : e.componentMap.filter (fun p => EqualReferents p.1 ti) = [] := by
        rw [← hti]
        refine List.filter_eq_nil_iff.mpr (fun p hp => ?_)
        simp [hnone p hp]
      rw [List.length_cons, hnil]
      exact Nat.le_refl 1

theorem countFor_le_one_eraseTi (e : Entity) (tj : TIKey)
    (h : ∀ ti, e.countFor ti ≤ 1) : ∀ ti, (e.eraseTi tj).countFor ti ≤ 1 := by
  intro ti
  refine le_trans ?_ (h ti)
  rw [Entity.countFor, Entity.countFor]
  simp only [Entity.eraseTi]
  exact List.Sublist.length_le (List.Sublist.filter _ (List.filter_sublist _))

theorem reachable_countFor {e : Entity} (h : Reachable e) : ∀ ti, e.countFor ti ≤ 1 := by
  induction h with
  | empty => intro ti; rw [countFor_empty]; exact Nat.zero_le 1
  | emplace e T v _ ih => exact countFor_le_one_emplace e T v ih
  | insert e T v _ ih => exact countFor_le_one_emplace e T v ih
  | erase e T _ ih => exact countFor_le_one_eraseTi e (some T) ih

theorem get_tag_of_wellTagged (e : Entity) (T : Nat) (c : Stored)
    (hw : WellTagged e) (hg : e.get T = some c) : c.tag = T := by
  rw [Entity.get, Entity.getTi] at hg
  cases hfind : e.componentMap.find? (fun p => EqualReferents p.1 (some T)) with
  | none => rw [hfind] at hg; cases hg
  | some q =>
    rw [hfind] at hg
    injection hg with hq
    have hmem := List.mem_of_find?_eq_some hfind
    have hpred := List.find?_some hfind
    have hkey : q.1 = some T := (equalReferents_iff _ _).mp hpred
    have htag := hw q hmem
    rw [hkey] at htag
    injection htag with h2
    rw [← hq, ← h2]

theorem getTi_null_of_wellTagged (e : Entity) (hw : WellTagged e) :
    e.getTi none = none := by
  rw [Entity.getTi]
  have hfind : e.componentMap.find? (fun p => EqualReferents p.1 none) = none := by
    refine List.find?_eq_none.mpr (fun p hp => ?_)
    rw [hw p hp]
    simp [EqualReferents]
  rw [hfind]

theorem runTOps_append (T : Nat) (e : Entity) (l₁ l₂ : List TOp) :
    runTOps T e (l₁ ++ l₂) = runTOps T (runTOps T e l₁) l₂ :=
  List.foldl_append _ _ _ _

theorem reachable_runTOps (T : Nat) (e : Entity) (ops : List TOp) (h : Reachable e) :
    Reachable (runTOps T e ops) := by
  induction ops generalizing e with
  | nil => exact h
  | cons op rest ih =>
    rw [show runTOps T e (op :: rest) = runTOps T (applyTOp T e op) rest from rfl]
    refine ih _ ?_
    cases op with
    | emplaceOp v => exact Reachable.emplace e T v h
    | insertOp v => exact Reachable.insert e T v h
    | eraseOp => exact Reachable.erase e T h

theorem concat_decomp {α : Type} (l : List α) (x : α) (pre : List α) (o : α)
    (post : List α) (h : l ++ [x] = pre ++ o :: post) :
    (pre = l ∧ o = x ∧ post = []) ∨
      ∃ post', post = post' ++ [x] ∧ l = pre ++ o :: post' := by
  induction post using List.reverseRecOn with
  | nil =>
    left
    have hinj := List.append_inj' h rfl
    have hxo : x = o := by simpa using hinj.2
    exact ⟨hinj.1.symm, hxo.symm, rfl⟩
  | append_singleton post' y _ =>
    right
    have h' : l ++ [x] = (pre ++ o :: post') ++ [y] := by
      rw [h]; simp
    have hinj := List.append_inj' h' rfl
    have hxy : x = y := by simpa using hinj.2
    exact ⟨post', by rw [hxy], hinj.1⟩

theorem contains_runTOps_iff (T : Nat) (ops : List TOp) :
    (runTOps T Entity.empty ops).contains T = true ↔ InsertedNotErased T ops := by
  induction ops using List.reverseRecOn with
  | nil =>
    constructor
    · intro h
      simp [runTOps, Entity.contains, Entity.containsTi, Entity.empty] at h
    · rintro ⟨pre, op, post, habs, -, -, -⟩
      cases pre <;> simp at habs
  | append_singleton l x ih =>
    cases x with
    | eraseOp =>
      have hL : (runTOps T Entity.empty (l ++ [TOp.eraseOp])).contains T = false := by
        rw [runTOps_append]
        exact containsTi_eraseTi_self (runTOps T Entity.empty l) (some T)
      rw [hL]
      simp only [Bool.false_eq_true, false_iff]
      rintro ⟨pre, op, post, heq, hins, hpre, hpost⟩
      rcases concat_decomp l TOp.eraseOp pre op post heq with ⟨h1, h2, h3⟩ | ⟨post', hp1, hp2⟩
      · rw [h2] at hins; cases hins
      · refine hpost TOp.eraseOp ?_ rfl
        rw [hp1]
        exact List.mem_append_right _ (List.mem_singleton_self _)
    | emplaceOp v =>
      have hL : (runTOps T Entity.empty (l ++ [TOp.emplaceOp v])).contains T = true := by
        rw [runTOps_append]
        exact contains_emplace_self (runTOps T Entity.empty l) T v
      rw [hL]
      simp only [true_iff]
      cases hc : (runTOps T Entity.empty l).contains T with
      | false =>
        exact ⟨l, TOp.emplaceOp v, [], rfl, rfl, hc, by simp⟩
      | true =>
        obtain ⟨pre, op, post, heq, hins, hpre, hpost⟩ := ih.mp hc
        refine ⟨pre, op, post ++ [TOp.emplaceOp v], by rw [heq]; simp, hins, hpre, ?_⟩
        intro o ho
        rcases List.mem_append.mp ho with hmem | hmem
        · exact hpost o hmem
        · rw [List.mem_singleton.mp hmem]
          intro hcon; cases hcon
    | insertOp v =>
      have hL : (runTOps T Entity.empty (l ++ [TOp.insertOp v])).contains T = true := by
        rw [runTOps_append]
        exact contains_emplace_self (runTOps T Entity.empty l) T v
      rw [hL]
      simp only [true_iff]
      cases hc : (runTOps T Entity.empty l).contains T with
      | false =>
        exact ⟨l, TOp.insertOp v, [], rfl, rfl, hc, by simp⟩
      | true =>
        obtain ⟨pre, op, post, heq, hins, hpre, hpost⟩ := ih.mp hc
        refine ⟨pre, op, post ++ [TOp.insertOp v], by rw [heq]; simp, hins, hpre, ?_⟩
        intro o ho
        rcases List.mem_append.mp ho with hmem | hmem
        · exact hpost o hmem
        · rw [List.mem_singleton.mp hmem]
          intro hcon; cases hcon

/-! ## Lemmas about `System::process` -/

theorem process_fst {W : Type} (s : System) (logic : Entity → W → Entity × W)
    (e : Entity) (w : W) : (s.process logic e w).1 = s := by
  unfold System.process
  split <;> rfl

theorem processSeq_fst {W : Type} (s : System) (logic : Entity → W → Entity × W)
    (es : List Entity) (w : W) : (System.processSeq logic s es w).1 = s := by
  induction es generalizing s w with
  | nil => rfl
  | cons e rest ih =>
    show (System.processSeq logic (s.process logic e w).1 rest
      (s.process logic e w).2.2).1 = s
    rw [process_fst]
    exact ih s _

theorem process_counting_entity (s : System) (logic : Entity → Entity)
    (e : Entity) (n : Nat) :
    (s.process (countingLogic logic) e n).2.1 =
      if s.componentTypes.all (fun ti => Entity.containsTi e ti) then logic e else e := by
  unfold System.process
  split <;> rfl

theorem process_counting_world (s : System) (logic : Entity → Entity)
    (e : Entity) (n : Nat) :
    (s.process (countingLogic logic) e n).2.2 =
      if s.componentTypes.all (fun ti => Entity.containsTi e ti) then n + 1 else n := by
  unfold System.process
  split <;> rfl

theorem processSeq_counting_entities (s : System) (logic : Entity → Entity)
    (es : List Entity) (n : Nat) :
    (System.processSeq (countingLogic logic) s es n).2.1 =
      es.map (fun e => (s.process (countingLogic logic) e 0).2.1) := by
  induction es generalizing n with
  | nil => rfl
  | cons e rest ih =>
    show (s.process (countingLogic logic) e n).2.1 ::
        (System.processSeq (countingLogic logic) (s.process (countingLogic logic) e n).1 rest
          (s.process (countingLogic logic) e n).2.2).2.1 = _
    rw [process_fst, ih, List.map_cons]
    congr 1
    rw [process_counting_entity, process_counting_entity]

theorem processSeq_counting_count (s : System) (logic : Entity → Entity)
    (es : List Entity) (n : Nat) :
    (System.processSeq (countingLogic logic) s es n).2.2 =
      n + es.countP (fun e => s.componentTypes.all (fun ti => Entity.containsTi e ti)) := by
  induction es generalizing n with
  | nil => simp [System.processSeq]
  | cons e rest ih =>
    show (System.processSeq (countingLogic logic) (s.process (countingLogic logic) e n).1 rest
        (s.process (countingLogic logic) e n).2.2).2.2 = _
    rw [process_fst, ih, process_counting_world, List.countP_cons]
    cases hpass : s.componentTypes.all (fun ti => Entity.containsTi e ti) with
    | true => simp [hpass]; omega
    | false => simp [hpass]

/-! ## Claim theorems -/

/-- **C1**: `System::process(Entity&)` invokes the virtual `logic(e)` (made
observable by the counting instrumentation: the count reaches `1` exactly when
`logic` ran, and the entity result is `logic e`) if and only if every required
type identity is contained in the entity; otherwise the call is a silent
no-op.  The filter is the conjunction over the whole requirement list, of any
size; for `N = 0` it is vacuously true, so `logic` is always invoked. -/
theorem spec_C1_process_filter (Ts : List Nat) (logic : Entity → Entity) (e : Entity) :
    ((System.ofComponents Ts).process (countingLogic logic) e 0 =
      if Ts.all (fun T => e.contains T) then (System.ofComponents Ts, logic e, 1)
      else (System.ofComponents Ts, e, 0))
    ∧ (Ts.all (fun T => e.contains T) = true ↔ ∀ T ∈ Ts, e.contains T = true)
    ∧ (System.ofComponents []).process (countingLogic logic) e 0
        = (System.ofComponents [], logic e, 1) := by
  refine ⟨?_, List.all_eq_true, rfl⟩
  have hmap : (System.ofComponents Ts).componentTypes.all (fun ti => Entity.containsTi e ti)
      = Ts.all (fun T => e.contains T) := by
    show (Ts.map some).all (fun ti => Entity.containsTi e ti) = Ts.all (fun T => e.contains T)
    induction Ts with
    | nil => rfl
    | cons t ts ih =>
      simp only [List.map_cons, List.all_cons, ih]
      rfl
  unfold System.process
  rw [hmap]
  split <;> rfl

/-- **C2**: insertion is insert-or-no-op (first writer wins): on an entity
with no `T`, inserting distinct instances `A` then `B` (each via `emplace<T>`
or `insert<T>`, with no intervening `erase<T>`) leaves `A` as the stored
entry; `get<T>` returns `A`'s component, never `B`'s, and the second insertion
leaves the entity unchanged. -/
theorem spec_C2_first_writer_wins (T A B : Nat) (e : Entity)
    (f g : Entity → Nat → Nat → Entity)
    (hf : f = Entity.emplace ∨ f = Entity.insert)
    (hg : g = Entity.emplace ∨ g = Entity.insert)
    (hno : e.contains T = false) (hAB : A ≠ B) :
    (g (f e T A) T B).get T = some (MakeComponentPtr T A)
    ∧ (g (f e T A) T B).get T ≠ some (MakeComponentPtr T B)
    ∧ g (f e T A) T B = f e T A := by
  have hfe : f = Entity.emplace := by
    rcases hf with h | h
    · exact h
    · rw [h, insert_eq_emplace]
  have hge : g = Entity.emplace := by
    rcases hg with h | h
    · exact h
    · rw [h, insert_eq_emplace]
  subst hfe
  subst hge
  have h1 : (e.emplace T A).contains T = true := contains_emplace_self e T A
  have hsame : (e.emplace T A).emplace T B = e.emplace T A := emplace_of_contains _ T B h1
  refine ⟨?_, ?_, hsame⟩
  · rw [hsame, get_emplace_self e T A hno]
  · rw [hsame, get_emplace_self e T A hno]
    intro hcon
    injection hcon with hc
    exact hAB (congrArg Stored.val hc)

/-- Witness for C2: on a fresh entity, `emplace<T>(A)` then `insert<T>(B)`
keeps `A`. -/
theorem spec_C2_first_writer_wins_witness :
    Entity.empty.contains 0 = false ∧ (1 : Nat) ≠ 2 ∧
    (Entity.insert (Entity.emplace Entity.empty 0 1) 0 2).get 0
      = some (MakeComponentPtr 0 1) :=
  ⟨by decide, by decide,
   (spec_C2_first_writer_wins 0 1 2 Entity.empty Entity.emplace Entity.insert
     (Or.inl rfl) (Or.inr rfl) (by decide) (by decide)).1⟩

/-- **C3**: uniqueness and presence: starting from a default-constructed
entity, after any finite sequence of `emplace<T>`/`insert<T>`/`erase<T>`
operations, `contains<T>` holds — equivalently `get<T>` is non-absent — if
and only if some successful insertion of `T` occurred with no subsequent
`erase<T>` (`InsertedNotErased`); and the store holds at most one component
instance per type identity. -/
theorem spec_C3_uniqueness_presence (T : Nat) (ops : List TOp) :
    ((runTOps T Entity.empty ops).contains T = true ↔ InsertedNotErased T ops)
    ∧ ((runTOps T Entity.empty ops).get T).isSome = (runTOps T Entity.empty ops).contains T
    ∧ (∀ ti, (runTOps T Entity.empty ops).countFor ti ≤ 1) := by
  refine ⟨contains_runTOps_iff T ops, ?_, ?_⟩
  · rw [Entity.contains, containsTi_eq_isSome]
    rfl
  · exact reachable_countFor (reachable_runTOps T Entity.empty ops Reachable.empty)

/-- **C4**: typed-restore safety: in every entity state reachable through the
public operations, a pointer stored under `T`'s type identity was created via
`MakeComponentPtr<T>` as a `T` (its `tag` is `T`), so the narrowing
`static_cast<T*>` performed by `get<T>` is always applied to a pointer whose
pointee really is a `T`; no wrong-type failure is reachable. -/
theorem spec_C4_cast_safety (e : Entity) (T : Nat) (c : Stored)
    (hr : Reachable e) (hg : e.get T = some c) : c.tag = T :=
  get_tag_of_wellTagged e T c (reachable_wellTagged hr) hg

/-- Witness for C4 at a concrete reachable entity. -/
theorem spec_C4_cast_safety_witness : (MakeComponentPtr 2 7).tag = 2 :=
  spec_C4_cast_safety (Entity.empty.emplace 2 7) 2 (MakeComponentPtr 2 7)
    (Reachable.emplace Entity.empty 2 7 Reachable.empty) (by decide)

/-- **C5**: `System::process(std::vector<Entity>&)` applies the per-entity
`process` to each entity exactly once, in sequence order, with no
short-circuiting: the resulting entity list is the elementwise map of the
single-entity `process` (entity `i`'s result is a function of entity `i`
alone, unaffected by whether earlier entities passed or failed the filter),
and the number of `logic` invocations is exactly the number of entities that
pass the filter. -/
theorem spec_C5_sequence_independence (s : System) (logic : Entity → Entity)
    (es : List Entity) (n : Nat) :
    ((System.processSeq (countingLogic logic) s es n).2.1 =
      es.map (fun e => (s.process (countingLogic logic) e 0).2.1))
    ∧ ((System.processSeq (countingLogic logic) s es n).2.2 =
      n + es.countP (fun e => s.componentTypes.all (fun ti => Entity.containsTi e ti))) :=
  ⟨processSeq_counting_entities s logic es n, processSeq_counting_count s logic es n⟩

/-- **C6**: filtering is read-only: when the entity fails the requirement
check, `process` returns the entity (and the external world) unchanged — the
membership test mutates nothing and `logic` is never invoked. -/
theorem spec_C6_filter_readonly {W : Type} (s : System)
    (logic : Entity → W → Entity × W) (e : Entity) (w : W)
    (h : s.componentTypes.all (fun ti => Entity.containsTi e ti) = false) :
    s.process logic e w = (s, e, w) := by
  unfold System.process
  rw [h]
  rfl

/-- Witness for C6: an entity lacking the required component is left
untouched. -/
theorem spec_C6_filter_readonly_witness :
    (System.ofComponents [5]).process (countingLogic id) Entity.empty 0
      = (System.ofComponents [5], Entity.empty, 0) :=
  spec_C6_filter_readonly (System.ofComponents [5]) (countingLogic id)
    Entity.empty 0 (by decide)

/-- **C7**: a system's required-type list is fixed at construction — for a
system declared over component types `Ts` it equals their type identities in
declaration order — and neither `process` on an entity nor `process` on a
sequence changes the receiver system, hence its `componentTypes`. -/
theorem spec_C7_required_types_fixed {W : Type} (Ts : List Nat)
    (logic : Entity → W → Entity × W) (e : Entity) (w : W) (es : List Entity) :
    ((System.ofComponents Ts).componentTypes = Ts.map some)
    ∧ (((System.ofComponents Ts).process logic e w).1 = System.ofComponents Ts)
    ∧ ((System.processSeq logic (System.ofComponents Ts) es w).1
        = System.ofComponents Ts) :=
  ⟨rfl, process_fst _ _ _ _, processSeq_fst _ _ _ _⟩

/-- **C8**: erase is idempotent and total: erasing `T` from an entity that
does not contain `T` leaves the store unchanged (a no-op, not an error);
erasing twice yields the same store state as erasing once; and after an erase
the entity does not contain `T`. -/
theorem spec_C8_erase_idempotent (e : Entity) (T : Nat) :
    (e.contains T = false → e.erase T = e)
    ∧ (e.erase T).erase T = e.erase T
    ∧ (e.erase T).contains T = false :=
  ⟨fun h => eraseTi_of_not_contains e (some T) h,
   eraseTi_idem e (some T),
   containsTi_eraseTi_self e (some T)⟩

/-- Witness for C8: erasing an absent component from a fresh entity is a
no-op. -/
theorem spec_C8_erase_idempotent_witness :
    Entity.empty.contains 3 = false ∧ Entity.empty.erase 3 = Entity.empty :=
  ⟨by decide, (spec_C8_erase_idempotent Entity.empty 3).1 (by decide)⟩

/-- **C9**: frame property of single-type mutations: `emplace<T>`,
`insert<T>`, and `erase<T>` leave the store's entry for a distinct concrete
type `U` unchanged — `contains<U>` and `get<U>` agree before and after. -/
theorem spec_C9_frame (e : Entity) (T U v : Nat) (h : T ≠ U) :
    ((e.emplace T v).contains U = e.contains U)
    ∧ ((e.emplace T v).get U = e.get U)
    ∧ ((e.insert T v).contains U = e.contains U)
    ∧ ((e.insert T v).get U = e.get U)
    ∧ ((e.erase T).contains U = e.contains U)
    ∧ ((e.erase T).get U = e.get U) := by
  have hne : (some U : TIKey) ≠ some T := by
    intro hcon
    injection hcon with hc
    exact h hc.symm
  exact ⟨containsTi_emplace_ne e T v (some U) hne,
    getTi_emplace_ne e T v (some U) hne,
    containsTi_emplace_ne e T v (some U) hne,
    getTi_emplace_ne e T v (some U) hne,
    containsTi_eraseTi_ne e (some U) (some T) hne,
    getTi_eraseTi_ne e (some U) (some T) hne⟩

/-- Witness for C9: emplacing type `0` does not disturb the entry for
type `1`. -/
theorem spec_C9_frame_witness :
    ((Entity.empty.emplace 1 9).emplace 0 4).contains 1
      = (Entity.empty.emplace 1 9).contains 1 :=
  (spec_C9_frame (Entity.empty.emplace 1 9) 0 1 4 (by decide)).1

/-- **C10**: the identity-based accessors are total on a null type-identity
pointer: in every reachable entity state (no entry is ever stored under a
null identity by the public typed operations), `get(nullptr)` returns null,
`contains(nullptr)` is false, and the hash functor maps the null identity to
`0` rather than dereferencing it. -/
theorem spec_C10_null_identity (e : Entity) (hr : Reachable e) :
    e.getTi none = none
    ∧ e.containsTi none = false
    ∧ HashTypeInfoReferents none = 0 := by
  have hget := getTi_null_of_wellTagged e (reachable_wellTagged hr)
  refine ⟨hget, ?_, rfl⟩
  rw [containsTi_eq_isSome, hget]
  rfl

/-- Witness for C10 at a concrete reachable entity. -/
theorem spec_C10_null_identity_witness :
    (Entity.empty.emplace 4 2).getTi none = none :=
  (spec_C10_null_identity (Entity.empty.emplace 4 2)
    (Reachable.emplace Entity.empty 4 2 Reachable.empty)).1

end MicroECS
